import Mathlib

/-!
Shallow embedding of the `cache` package of dhyanio/go-lru (files `lru.go`
and `cacher.go`), together with proofs of the specified properties.

Modelling conventions:
* Go `map[string]T` becomes an association list `List (String × T)`;
  lookup, insert and delete are given by `lookupAL`, `insertAL`, `eraseAL`
  below, which agree with Go map semantics on lists whose keys are distinct
  (an invariant of every reachable cache state, proved below).
* Go `[]byte` values become `Value := List Nat` (abstract byte sequences);
  keys, which `lru.go` converts to `string` before use, are `String`.
* `time.Time` and `time.Duration` become `Int` (nanosecond counts); the
  wall-clock read `time.Now()` / `time.Since(t)` is modelled by passing the
  current instant `now` explicitly to each operation, with
  `time.Since(t) = now - t`.
* The optional `OnEvict` callback is modelled observationally: the
  configuration records whether a callback is installed (`OnEvict : Bool`)
  and the cache state carries `evictLog`, the sequence of `(key, value)`
  arguments the callback has been invoked with, in invocation order.
* The `sync.RWMutex` field and the lock calls are dropped: every operation
  is modelled as an atomic state transformer, which is the behaviour the
  lock is there to produce.
-/

namespace GoLRU

/-- Byte-slice values (`[]byte` in the source). -/
abbrev Value := List Nat

/-- Lookup in an association list: the Go map read `m[k]` (with `found`). -/
def lookupAL {α : Type} : List (String × α) → String → Option α
  | [], _ => none
  | (k, v) :: m, key => if key = k then some v else lookupAL m key

/-- Lookup with a default: the Go map read `m[k]` ignoring `found`, which
yields the zero value when the key is absent. -/
def lookupD {α : Type} (m : List (String × α)) (key : String) (d : α) : α :=
  (lookupAL m key).getD d

/-- Insert/update in an association list: the Go map write `m[k] = v`. -/
def insertAL {α : Type} : List (String × α) → String → α → List (String × α)
  | [], key, v => [(key, v)]
  | (k, v0) :: m, key, v =>
      if key = k then (k, v) :: m else (k, v0) :: insertAL m key v

/-- Deletion from an association list: the Go builtin `delete(m, k)`. -/
def eraseAL {α : Type} : List (String × α) → String → List (String × α)
  | [], _ => []
  | (k, v) :: m, key => if key = k then eraseAL m key else (k, v) :: eraseAL m key

/-- The keys of an association list, in order. -/
def keys {α : Type} (m : List (String × α)) : List String := m.map Prod.fst

/-- Removal of the first occurrence of `key` from a list of keys: the
`for i, k := range slice { if k == key { slice = append(slice[:i], slice[i+1:]...); break } }`
splice pattern used by both `remove` and `updateOrder` in `lru.go`. -/
def removeFirst : List String → String → List String
  | [], _ => []
  | k :: ks, key => if k = key then ks else k :: removeFirst ks key

/-- The two error kinds of the `util` package referenced by `lru.go`:
`util.KeyNotFoundError{Key: k}` and `util.ExpiredKeyError{Key: k}`, each
carrying the offending key. -/
inductive CacheError where
  | KeyNotFoundError (key : String)
  | ExpiredKeyError (key : String)
deriving DecidableEq, Repr

/-- Model of `CacheOpts` from `lru.go`: capacity, TTL and the eviction callback.
`OnEvict` records whether a callback is installed (`OnEvict != nil`);
its invocations are observed through `Cache.evictLog`. -/
structure CacheOpts where
  Capacity : Int
  TTL : Int
  OnEvict : Bool
deriving DecidableEq, Repr

/-- The `Cache` struct from `lru.go` (mutex omitted, see the header note).
`evictLog` is the observation log of eviction-callback invocations. -/
structure Cache where
  opts : CacheOpts
  items : List (String × Value)
  order : List String
  hits : Nat
  misses : Nat
  evictions : Nat
  timestamps : List (String × Int)
  evictLog : List (String × Value)
deriving DecidableEq, Repr

/-- Model of `NewCache` from `lru.go`: empty store, order and timestamp map. -/
def NewCache (opts : CacheOpts) : Cache :=
  { opts := opts, items := [], order := [], hits := 0, misses := 0,
    evictions := 0, timestamps := [], evictLog := [] }

/-- Model of `remove` from `lru.go`: if the key is present, delete it from the item
and timestamp maps, invoke the eviction callback (when installed) with the
stored value, and splice the key out of the order slice. -/
def Cache.remove (c : Cache) (key : String) : Cache :=
  match lookupAL c.items key with
  | some value =>
      { c with
        items := eraseAL c.items key,
        timestamps := eraseAL c.timestamps key,
        evictLog := if c.opts.OnEvict then c.evictLog ++ [(key, value)] else c.evictLog,
        order := removeFirst c.order key }
  | none => c

/-- Model of `evict` from `lru.go`: remove the key at the front of the order slice
(the least recently used) and bump the eviction counter; a no-op when the
order slice is empty. -/
def Cache.evict (c : Cache) : Cache :=
  match c.order with
  | [] => c
  | oldestKey :: _ =>
      let c' := c.remove oldestKey
      { c' with evictions := c'.evictions + 1 }

/-- Model of `updateOrder` from `lru.go`: splice the key out of the order slice and
append it at the back (most recently used). -/
def Cache.updateOrder (c : Cache) (key : String) : Cache :=
  { c with order := removeFirst c.order key ++ [key] }

/-- Model of `Get` from `lru.go`, with the wall clock passed as `now`. Returns the
Go pair `([]byte, error)` as `Except CacheError Value`, plus the successor
state. -/
def Cache.Get (c : Cache) (key : String) (now : Int) :
    Except CacheError Value × Cache :=
  match lookupAL c.items key with
  | some value =>
      if c.opts.TTL > 0 ∧ now - lookupD c.timestamps key 0 > c.opts.TTL then
        let c' := c.remove key
        (Except.error (CacheError.ExpiredKeyError key),
         { c' with misses := c'.misses + 1 })
      else
        (Except.ok value, ({ c with hits := c.hits + 1 }).updateOrder key)
  | none =>
      (Except.error (CacheError.KeyNotFoundError key),
       { c with misses := c.misses + 1 })

/-- Model of `Put` from `lru.go`, with the wall clock passed as `now`. The Go
function always returns `nil`, so only the successor state is modelled. -/
def Cache.Put (c : Cache) (key : String) (value : Value) (now : Int) : Cache :=
  match lookupAL c.items key with
  | some _ =>
      ({ c with
         items := insertAL c.items key value,
         timestamps := insertAL c.timestamps key now }).updateOrder key
  | none =>
      let c1 := if (c.items.length : Int) ≥ c.opts.Capacity then c.evict else c
      { c1 with
        items := insertAL c1.items key value,
        timestamps := insertAL c1.timestamps key now,
        order := c1.order ++ [key] }

/-- Model of `Has` from `lru.go`: pure membership-and-liveness probe. It only reads
the state (the source takes the read lock and performs no writes), so it is
modelled as a function of the state alone. -/
def Cache.Has (c : Cache) (key : String) (now : Int) : Bool :=
  match lookupAL c.items key with
  | some _ =>
      if c.opts.TTL > 0 ∧ now - lookupD c.timestamps key 0 > c.opts.TTL then
        false
      else
        true
  | none => false

/-- Model of `Stats` from `lru.go`: the `(hits, misses, evictions)` snapshot. -/
def Cache.Stats (c : Cache) : Nat × Nat × Nat := (c.hits, c.misses, c.evictions)

/-- One API call, with the wall-clock instant observed by calls that read
the clock. -/
inductive Op where
  | put (key : String) (value : Value) (now : Int)
  | get (key : String) (now : Int)
  | has (key : String) (now : Int)
  | stats
deriving DecidableEq, Repr

/-- State effect of one API call (`Has` and `Stats` only read). -/
def Cache.step (c : Cache) : Op → Cache
  | Op.put key value now => c.Put key value now
  | Op.get key now => (c.Get key now).2
  | Op.has _ _ => c
  | Op.stats => c

/-- State after a sequence of API calls. -/
def run : Cache → List Op → Cache
  | c, [] => c
  | c, op :: ops => run (c.step op) ops

/-! ### Association-list lemmas (Go map semantics) -/

@[simp] theorem keys_nil {α : Type} : keys ([] : List (String × α)) = [] := rfl

@[simp] theorem keys_cons {α : Type} (p : String × α) (m : List (String × α)) :
    keys (p :: m) = p.1 :: keys m := rfl

theorem eraseAL_not_mem {α : Type} (m : List (String × α)) (key : String)
    (h : key ∉ keys m) : eraseAL m key = m := by
  induction m with
  | nil => rfl
  | cons p m ih =>
      obtain ⟨a, b⟩ := p
      simp only [keys_cons, List.mem_cons] at h
      push_neg at h
      simp [eraseAL, h.1, ih h.2]

theorem lookupAL_insertAL {α : Type} (m : List (String × α)) (key k : String) (v : α) :
    lookupAL (insertAL m key v) k = if k = key then some v else lookupAL m k := by
  induction m with
  | nil => by_cases hk : k = key <;> simp [insertAL, lookupAL, hk]
  | cons p m ih =>
      obtain ⟨a, b⟩ := p
      by_cases hka : key = a
      · subst hka
        by_cases hk : k = key <;> simp [insertAL, lookupAL, hk]
      · by_cases hk : k = a
        · subst hk
          have : ¬ k = key := fun h => hka (h ▸ rfl)
          simp [insertAL, lookupAL, hka, this]
        · simp [insertAL, lookupAL, hka, hk, ih]

theorem lookupAL_eraseAL {α : Type} (m : List (String × α)) (key k : String) :
    lookupAL (eraseAL m key) k = if k = key then none else lookupAL m k := by
  induction m with
  | nil => by_cases hk : k = key <;> simp [eraseAL, lookupAL, hk]
  | cons p m ih =>
      obtain ⟨a, b⟩ := p
      by_cases hka : key = a
      · subst hka
        by_cases hk : k = key
        · subst hk
          simp [eraseAL, ih]
        · simp [eraseAL, lookupAL, hk, ih]
      · by_cases hk : k = a
        · subst hk
          have : ¬ k = key := fun h => hka (h ▸ rfl)
          simp [eraseAL, lookupAL, hka, this]
        · simp [eraseAL, lookupAL, hka, hk, ih]

theorem mem_keys_iff {α : Type} (m : List (String × α)) (k : String) :
    k ∈ keys m ↔ (lookupAL m k).isSome := by
  induction m with
  | nil => simp [keys, lookupAL]
  | cons p m ih =>
      obtain ⟨a, b⟩ := p
      by_cases hk : k = a
      · simp [lookupAL, hk]
      · simp [lookupAL, hk, ih]

theorem keys_insertAL_some {α : Type} (m : List (String × α)) (key : String)
    (v w : α) (h : lookupAL m key = some w) :
    keys (insertAL m key v) = keys m := by
  induction m with
  | nil => simp [lookupAL] at h
  | cons p m ih =>
      obtain ⟨a, b⟩ := p
      by_cases hka : key = a
      · simp [insertAL, hka]
      · simp [lookupAL, hka] at h
        simp [insertAL, hka, ih h]

theorem keys_insertAL_none {α : Type} (m : List (String × α)) (key : String)
    (v : α) (h : lookupAL m key = none) :
    keys (insertAL m key v) = keys m ++ [key] := by
  induction m with
  | nil => simp [insertAL, keys]
  | cons p m ih =>
      obtain ⟨a, b⟩ := p
      by_cases hka : key = a
      · simp [lookupAL, hka] at h
      · simp [lookupAL, hka] at h
        simp [insertAL, hka, ih h]

theorem mem_keys_eraseAL {α : Type} (m : List (String × α)) (key x : String) :
    x ∈ keys (eraseAL m key) ↔ x ∈ keys m ∧ x ≠ key := by
  rw [mem_keys_iff, mem_keys_iff, lookupAL_eraseAL]
  by_cases hx : x = key <;> simp [hx]

theorem nodup_keys_eraseAL {α : Type} (m : List (String × α)) (key : String)
    (h : (keys m).Nodup) : (keys (eraseAL m key)).Nodup := by
  induction m with
  | nil => simp [eraseAL]
  | cons p m ih =>
      obtain ⟨a, b⟩ := p
      simp only [keys_cons, List.nodup_cons] at h
      by_cases hka : key = a
      · simpa [eraseAL, hka] using ih h.2
      · have ha : a ∉ keys (eraseAL m key) := by
          rw [mem_keys_eraseAL]
          intro hc
          exact h.1 hc.1
        simp only [eraseAL, if_neg hka, keys_cons, List.nodup_cons]
        exact ⟨ha, ih h.2⟩

theorem length_insertAL_some {α : Type} (m : List (String × α)) (key : String)
    (v w : α) (h : lookupAL m key = some w) :
    (insertAL m key v).length = m.length := by
  induction m with
  | nil => simp [lookupAL] at h
  | cons p m ih =>
      obtain ⟨a, b⟩ := p
      by_cases hka : key = a
      · simp [insertAL, hka]
      · simp [lookupAL, hka] at h
        simp [insertAL, hka, ih h]

theorem length_insertAL_none {α : Type} (m : List (String × α)) (key : String)
    (v : α) (h : lookupAL m key = none) :
    (insertAL m key v).length = m.length + 1 := by
  induction m with
  | nil => simp [insertAL]
  | cons p m ih =>
      obtain ⟨a, b⟩ := p
      by_cases hka : key = a
      · simp [lookupAL, hka] at h
      · simp [lookupAL, hka] at h
        simp [insertAL, hka, ih h]

theorem length_eraseAL_some {α : Type} (m : List (String × α)) (key : String)
    (w : α) (hn : (keys m).Nodup) (h : lookupAL m key = some w) :
    (eraseAL m key).length + 1 = m.length := by
  induction m with
  | nil => simp [lookupAL] at h
  | cons p m ih =>
      obtain ⟨a, b⟩ := p
      simp only [keys_cons, List.nodup_cons] at hn
      by_cases hka : key = a
      · subst hka
        simp [eraseAL, eraseAL_not_mem m key hn.1]
      · simp [lookupAL, hka] at h
        simp [eraseAL, hka, ih hn.2 h]

theorem nodup_keys_insertAL {α : Type} (m : List (String × α)) (key : String)
    (v : α) (h : (keys m).Nodup) : (keys (insertAL m key v)).Nodup := by
  cases hl : lookupAL m key with
  | some w => rw [keys_insertAL_some m key v w hl]; exact h
  | none =>
      rw [keys_insertAL_none m key v hl]
      refine List.nodup_append.2 ⟨h, List.nodup_singleton key, ?_⟩
      intro x hx hx1
      simp at hx1
      subst hx1
      rw [mem_keys_iff] at hx
      simp [hl] at hx

/-! ### Lemmas about the order-slice splice -/

theorem sublist_removeFirst (l : List String) (key : String) :
    (removeFirst l key).Sublist l := by
  induction l with
  | nil => simp [removeFirst]
  | cons k ks ih =>
      by_cases hk : k = key
      · rw [removeFirst, if_pos hk]
        exact List.Sublist.cons k (List.Sublist.refl ks)
      · rw [removeFirst, if_neg hk]
        exact List.Sublist.cons₂ k ih

theorem nodup_removeFirst (l : List String) (key : String) (h : l.Nodup) :
    (removeFirst l key).Nodup :=
  h.sublist (sublist_removeFirst l key)

theorem removeFirst_not_mem (l : List String) (key : String) (h : key ∉ l) :
    removeFirst l key = l := by
  induction l with
  | nil => rfl
  | cons k ks ih =>
      simp only [List.mem_cons] at h
      push_neg at h
      have hk : ¬ k = key := fun hc => h.1 hc.symm
      simp [removeFirst, hk, ih h.2]

theorem mem_removeFirst (l : List String) (key x : String) (h : l.Nodup) :
    x ∈ removeFirst l key ↔ x ∈ l ∧ x ≠ key := by
  induction l with
  | nil => simp [removeFirst]
  | cons k ks ih =>
      simp only [List.nodup_cons] at h
      by_cases hk : k = key
      · subst hk
        simp only [removeFirst, if_pos rfl, List.mem_cons]
        constructor
        · intro hx
          exact ⟨Or.inr hx, fun hxk => h.1 (hxk ▸ hx)⟩
        · rintro ⟨hx | hx, hxk⟩
          · exact absurd hx hxk
          · exact hx
      · simp only [removeFirst, if_neg hk, List.mem_cons, ih h.2]
        constructor
        · rintro (rfl | ⟨hx, hxk⟩)
          · exact ⟨Or.inl rfl, hk⟩
          · exact ⟨Or.inr hx, hxk⟩
        · rintro ⟨rfl | hx, hxk⟩
          · exact Or.inl rfl
          · exact Or.inr ⟨hx, hxk⟩

theorem length_removeFirst_of_mem (l : List String) (key : String) (h : key ∈ l) :
    (removeFirst l key).length + 1 = l.length := by
  induction l with
  | nil => cases h
  | cons k ks ih =>
      by_cases hk : k = key
      · simp [removeFirst, hk]
      · have hks : key ∈ ks := by
          rcases List.mem_cons.1 h with hc | hc
          · exact absurd hc.symm hk
          · exact hc
        simp [removeFirst, hk, ih hks]

/-! ### The quiescent-state invariant -/

/-- Well-formedness of a cache state: store keys are distinct, the order
slice has no duplicates, and the order slice holds exactly the keys of the
store.  This is the invariant stated in the data-model section of the spec;
every reachable state satisfies it (proved below). -/
structure WF (c : Cache) : Prop where
  items_nodup : (keys c.items).Nodup
  order_nodup : c.order.Nodup
  mem_iff : ∀ k, k ∈ c.order ↔ k ∈ keys c.items

theorem WF_NewCache (opts : CacheOpts) : WF (NewCache opts) :=
  ⟨by simp [NewCache], by simp [NewCache], by simp [NewCache]⟩

theorem WF.removeKey {c : Cache} (h : WF c) (key : String) : WF (c.remove key) := by
  unfold Cache.remove
  cases hl : lookupAL c.items key with
  | none => exact h
  | some v =>
      refine ⟨nodup_keys_eraseAL _ _ h.items_nodup,
        nodup_removeFirst _ _ h.order_nodup, ?_⟩
      intro k
      show k ∈ removeFirst c.order key ↔ k ∈ keys (eraseAL c.items key)
      rw [mem_removeFirst _ _ _ h.order_nodup, mem_keys_eraseAL, h.mem_iff k]

theorem WF.updateOrderKey {c : Cache} (h : WF c) (key : String)
    (hk : key ∈ keys c.items) : WF (c.updateOrder key) := by
  refine ⟨h.items_nodup, ?_, ?_⟩
  · refine List.Nodup.append (nodup_removeFirst _ _ h.order_nodup)
      (List.nodup_singleton key) ?_
    intro a ha hb
    simp only [List.mem_singleton] at hb
    subst hb
    exact ((mem_removeFirst _ _ _ h.order_nodup).1 ha).2 rfl
  · intro k
    show k ∈ removeFirst c.order key ++ [key] ↔ k ∈ keys c.items
    rw [List.mem_append, List.mem_singleton,
      mem_removeFirst _ _ _ h.order_nodup, h.mem_iff k]
    constructor
    · rintro (⟨hk2, _⟩ | rfl)
      · exact hk2
      · exact hk
    · intro hk2
      by_cases hkk : k = key
      · exact Or.inr hkk
      · exact Or.inl ⟨hk2, hkk⟩

theorem WF.evictLRU {c : Cache} (h : WF c) : WF c.evict := by
  unfold Cache.evict
  cases ho : c.order with
  | nil => exact h
  | cons oldest rest =>
      have h2 := h.removeKey oldest
      exact ⟨h2.items_nodup, h2.order_nodup, h2.mem_iff⟩

theorem remove_lookup_none (c : Cache) (key k : String)
    (h : lookupAL c.items k = none) : lookupAL (c.remove key).items k = none := by
  unfold Cache.remove
  cases hl : lookupAL c.items key with
  | none => exact h
  | some v =>
      show lookupAL (eraseAL c.items key) k = none
      rw [lookupAL_eraseAL]
      by_cases hk : k = key <;> simp [hk, h]

theorem evict_lookup_none (c : Cache) (k : String)
    (h : lookupAL c.items k = none) : lookupAL c.evict.items k = none := by
  unfold Cache.evict
  cases ho : c.order with
  | nil => exact h
  | cons oldest rest => exact remove_lookup_none c oldest k h

theorem WF.putKey {c : Cache} (h : WF c) (key : String) (value : Value)
    (now : Int) : WF (c.Put key value now) := by
  unfold Cache.Put
  cases hl : lookupAL c.items key with
  | some v =>
      have hkeys : keys (insertAL c.items key value) = keys c.items :=
        keys_insertAL_some _ _ _ _ hl
      have hkmem : key ∈ keys c.items := by
        rw [mem_keys_iff, hl]; rfl
      have h' : WF { c with items := insertAL c.items key value,
                            timestamps := insertAL c.timestamps key now } :=
        ⟨by simpa [hkeys] using h.items_nodup, h.order_nodup,
         fun k => by simpa [hkeys] using h.mem_iff k⟩
      exact h'.updateOrderKey key (by simpa [hkeys] using hkmem)
  | none =>
      have h1 : WF (if (c.items.length : Int) ≥ c.opts.Capacity then c.evict else c) := by
        split
        · exact h.evictLRU
        · exact h
      have hl1 : lookupAL (if (c.items.length : Int) ≥ c.opts.Capacity
          then c.evict else c).items key = none := by
        split
        · exact evict_lookup_none c key hl
        · exact hl
      set c1 := if (c.items.length : Int) ≥ c.opts.Capacity then c.evict else c with hc1
      have hknot : key ∉ keys c1.items := by
        rw [mem_keys_iff, hl1]
        simp
      refine ⟨?_, ?_, ?_⟩
      · exact nodup_keys_insertAL _ _ _ h1.items_nodup
      · show (c1.order ++ [key]).Nodup
        refine List.Nodup.append h1.order_nodup (List.nodup_singleton key) ?_
        intro a ha hb
        simp only [List.mem_singleton] at hb
        subst hb
        exact hknot ((h1.mem_iff a).1 ha)
      · intro k
        show k ∈ c1.order ++ [key] ↔ k ∈ keys (insertAL c1.items key value)
        rw [keys_insertAL_none _ _ _ hl1, List.mem_append, List.mem_append,
          h1.mem_iff k]

theorem WF.getKey {c : Cache} (h : WF c) (key : String) (now : Int) :
    WF (c.Get key now).2 := by
  unfold Cache.Get
  cases hl : lookupAL c.items key with
  | none => exact ⟨h.items_nodup, h.order_nodup, h.mem_iff⟩
  | some v =>
      by_cases hexp : c.opts.TTL > 0 ∧ now - lookupD c.timestamps key 0 > c.opts.TTL
      · simp only [if_pos hexp]
        have h2 := h.removeKey key
        exact ⟨h2.items_nodup, h2.order_nodup, h2.mem_iff⟩
      · simp only [if_neg hexp]
        have hkmem : key ∈ keys c.items := by
          rw [mem_keys_iff, hl]; rfl
        have h' : WF { c with hits := c.hits + 1 } :=
          ⟨h.items_nodup, h.order_nodup, h.mem_iff⟩
        exact h'.updateOrderKey key hkmem

theorem WF.stepOp {c : Cache} (h : WF c) (op : Op) : WF (c.step op) := by
  cases op with
  | put key value now => exact h.putKey key value now
  | get key now => exact h.getKey key now
  | has key now => exact h
  | stats => exact h

theorem WF_run (c : Cache) (ops : List Op) (h : WF c) : WF (run c ops) := by
  induction ops generalizing c with
  | nil => exact h
  | cons op ops ih => exact ih _ (h.stepOp op)

/-! ### Branch characterizations of the operations -/

theorem remove_items_some {c : Cache} {key : String} {v : Value}
    (hl : lookupAL c.items key = some v) :
    c.remove key = { c with
      items := eraseAL c.items key,
      timestamps := eraseAL c.timestamps key,
      evictLog := if c.opts.OnEvict then c.evictLog ++ [(key, v)] else c.evictLog,
      order := removeFirst c.order key } := by
  unfold Cache.remove
  rw [hl]

theorem remove_items_none {c : Cache} {key : String}
    (hl : lookupAL c.items key = none) : c.remove key = c := by
  unfold Cache.remove
  rw [hl]

/-- Behaviour of `Get` on an absent key: miss counter bumped, `NotFound` returned, and
every other component of the state untouched. -/
theorem get_absent {c : Cache} {key : String} (now : Int)
    (hl : lookupAL c.items key = none) :
    c.Get key now =
      (Except.error (CacheError.KeyNotFoundError key),
       { c with misses := c.misses + 1 }) := by
  unfold Cache.Get
  rw [hl]

/-- Behaviour of `Get` on a present but TTL-expired key: the entry is removed from the
store, the timestamp map and the order slice, the callback is invoked with
the stored value when installed, the miss counter is bumped, and `Expired`
is returned. -/
theorem get_expired {c : Cache} {key : String} {v : Value} {now : Int}
    (hl : lookupAL c.items key = some v)
    (ht : c.opts.TTL > 0)
    (he : now - lookupD c.timestamps key 0 > c.opts.TTL) :
    c.Get key now =
      (Except.error (CacheError.ExpiredKeyError key),
       { c with
         items := eraseAL c.items key,
         timestamps := eraseAL c.timestamps key,
         evictLog := if c.opts.OnEvict then c.evictLog ++ [(key, v)] else c.evictLog,
         order := removeFirst c.order key,
         misses := c.misses + 1 }) := by
  simp only [Cache.Get, hl, remove_items_some hl, if_pos (And.intro ht he)]

/-- Behaviour of `Get` on a present, live key: hit counter bumped, the key moved to the
most-recently-used end, the stored value returned, and everything else
untouched. -/
theorem get_live {c : Cache} {key : String} {v : Value} {now : Int}
    (hl : lookupAL c.items key = some v)
    (hlive : ¬ (c.opts.TTL > 0 ∧ now - lookupD c.timestamps key 0 > c.opts.TTL)) :
    c.Get key now =
      (Except.ok v,
       { c with
         hits := c.hits + 1,
         order := removeFirst c.order key ++ [key] }) := by
  simp only [Cache.Get, hl, if_neg hlive]
  rfl

/-- Behaviour of `Put` on a present key: value replaced, timestamp refreshed, key moved
to the most-recently-used end; no eviction, no callback, counters
untouched. -/
theorem put_present {c : Cache} {key : String} {v0 : Value}
    (value : Value) (now : Int) (hl : lookupAL c.items key = some v0) :
    c.Put key value now =
      { c with
        items := insertAL c.items key value,
        timestamps := insertAL c.timestamps key now,
        order := removeFirst c.order key ++ [key] } := by
  simp only [Cache.Put, hl]
  rfl

/-- Behaviour of `Put` on an absent key with spare capacity: plain insert at the
most-recently-used end. -/
theorem put_absent_spare {c : Cache} {key : String} (value : Value) (now : Int)
    (hl : lookupAL c.items key = none)
    (hcap : ¬ (c.items.length : Int) ≥ c.opts.Capacity) :
    c.Put key value now =
      { c with
        items := insertAL c.items key value,
        timestamps := insertAL c.timestamps key now,
        order := c.order ++ [key] } := by
  simp only [Cache.Put, hl, if_neg hcap]

/-- Behaviour of `Put` of an absent key at full capacity, nonempty order: the key at the
front of the order (least recently used) is evicted — removed from both
maps and the order, callback invoked, eviction counter bumped — and the new
entry is inserted at the most-recently-used end. -/
theorem put_absent_full {c : Cache} {key oldest : String} {rest : List String}
    {w : Value} (value : Value) (now : Int)
    (hl : lookupAL c.items key = none)
    (hcap : (c.items.length : Int) ≥ c.opts.Capacity)
    (ho : c.order = oldest :: rest)
    (hw : lookupAL c.items oldest = some w) :
    c.Put key value now =
      { c with
        items := insertAL (eraseAL c.items oldest) key value,
        timestamps := insertAL (eraseAL c.timestamps oldest) key now,
        evictLog := if c.opts.OnEvict then c.evictLog ++ [(oldest, w)] else c.evictLog,
        order := rest ++ [key],
        evictions := c.evictions + 1 } := by
  simp only [Cache.Put, hl, if_pos hcap, Cache.evict, ho, remove_items_some hw,
    removeFirst, if_true, ite_true]

/-- Behaviour of `Put` of an absent key when the eviction guard fires on an empty order:
the defensive no-op branch of `evict`, then a plain insert. -/
theorem put_absent_empty_order {c : Cache} {key : String} (value : Value) (now : Int)
    (hl : lookupAL c.items key = none)
    (hcap : (c.items.length : Int) ≥ c.opts.Capacity)
    (ho : c.order = []) :
    c.Put key value now =
      { c with
        items := insertAL c.items key value,
        timestamps := insertAL c.timestamps key now,
        order := [key] } := by
  simp only [Cache.Put, hl, if_pos hcap, Cache.evict, ho, List.nil_append]

/-! ### Configuration immutability and the capacity bound -/

theorem remove_opts (c : Cache) (key : String) : (c.remove key).opts = c.opts := by
  unfold Cache.remove
  cases lookupAL c.items key <;> rfl

theorem evict_opts (c : Cache) : c.evict.opts = c.opts := by
  unfold Cache.evict
  cases c.order with
  | nil => rfl
  | cons o r => exact remove_opts c o

theorem Put_opts (c : Cache) (key : String) (value : Value) (now : Int) :
    (c.Put key value now).opts = c.opts := by
  cases hl : lookupAL c.items key with
  | some v => rw [put_present value now hl]
  | none =>
      simp only [Cache.Put, hl]
      show (if (c.items.length : Int) ≥ c.opts.Capacity then c.evict else c).opts = c.opts
      split
      · exact evict_opts c
      · rfl

theorem Get_opts (c : Cache) (key : String) (now : Int) :
    (c.Get key now).2.opts = c.opts := by
  cases hl : lookupAL c.items key with
  | none => rw [get_absent now hl]
  | some v =>
      by_cases hexp : c.opts.TTL > 0 ∧ now - lookupD c.timestamps key 0 > c.opts.TTL
      · rw [get_expired hl hexp.1 hexp.2]
      · rw [get_live hl hexp]

theorem step_opts (c : Cache) (op : Op) : (c.step op).opts = c.opts := by
  cases op with
  | put key value now => exact Put_opts c key value now
  | get key now => exact Get_opts c key now
  | has key now => rfl
  | stats => rfl

theorem run_opts (c : Cache) (ops : List Op) : (run c ops).opts = c.opts := by
  induction ops generalizing c with
  | nil => rfl
  | cons op ops ih => rw [run, ih, step_opts]

theorem length_eraseAL_le {α : Type} (m : List (String × α)) (key : String) :
    (eraseAL m key).length ≤ m.length := by
  induction m with
  | nil => simp [eraseAL]
  | cons p m ih =>
      obtain ⟨a, b⟩ := p
      by_cases hka : key = a
      · simp only [eraseAL, if_pos hka, List.length_cons]
        omega
      · simp only [eraseAL, if_neg hka, List.length_cons]
        omega

theorem items_nil_of_order_nil {c : Cache} (h : WF c) (ho : c.order = []) :
    c.items = [] := by
  cases hi : c.items with
  | nil => rfl
  | cons p m =>
      have hp : p.1 ∈ keys c.items := by
        rw [hi]
        simp
      have hmem := (h.mem_iff p.1).2 hp
      rw [ho] at hmem
      cases hmem

/-- Size bound satisfied by every reachable state: at most `Capacity`
entries, except that a cache constructed with `Capacity ≤ 0` still holds up
to one entry (the `evict`-then-insert path of `Put` always leaves the new
entry in). -/
def SizeOK (c : Cache) : Prop := (c.items.length : Int) ≤ max c.opts.Capacity 1

theorem SizeOK_put {c : Cache} (h : WF c) (hs : SizeOK c)
    (key : String) (value : Value) (now : Int) : SizeOK (c.Put key value now) := by
  unfold SizeOK at hs ⊢
  rw [Put_opts]
  cases hl : lookupAL c.items key with
  | some v =>
      rw [put_present value now hl]
      show ((insertAL c.items key value).length : Int) ≤ max c.opts.Capacity 1
      rw [length_insertAL_some _ _ _ v hl]
      exact hs
  | none =>
      by_cases hcap : (c.items.length : Int) ≥ c.opts.Capacity
      · cases ho : c.order with
        | nil =>
            rw [put_absent_empty_order value now hl hcap ho]
            show ((insertAL c.items key value).length : Int) ≤ max c.opts.Capacity 1
            rw [items_nil_of_order_nil h ho]
            simp [insertAL, le_max_right]
        | cons oldest rest =>
            have homem : oldest ∈ keys c.items :=
              (h.mem_iff oldest).1 (by rw [ho]; exact List.mem_cons_self oldest rest)
            rw [mem_keys_iff] at homem
            obtain ⟨w, hw⟩ := Option.isSome_iff_exists.1 homem
            rw [put_absent_full value now hl hcap ho hw]
            show ((insertAL (eraseAL c.items oldest) key value).length : Int) ≤
              max c.opts.Capacity 1
            have hl2 : lookupAL (eraseAL c.items oldest) key = none := by
              rw [lookupAL_eraseAL]
              split <;> simp [hl]
            rw [length_insertAL_none _ _ _ hl2]
            have hlen := length_eraseAL_some c.items oldest w h.items_nodup hw
            push_cast
            omega
      · rw [put_absent_spare value now hl hcap]
        show ((insertAL c.items key value).length : Int) ≤ max c.opts.Capacity 1
        rw [length_insertAL_none _ _ _ hl]
        push_cast
        have hmax : c.opts.Capacity ≤ max c.opts.Capacity 1 := le_max_left _ _
        omega

theorem SizeOK_get {c : Cache} (hs : SizeOK c) (key : String) (now : Int) :
    SizeOK (c.Get key now).2 := by
  unfold SizeOK at hs ⊢
  rw [Get_opts]
  cases hl : lookupAL c.items key with
  | none =>
      rw [get_absent now hl]
      exact hs
  | some v =>
      by_cases hexp : c.opts.TTL > 0 ∧ now - lookupD c.timestamps key 0 > c.opts.TTL
      · rw [get_expired hl hexp.1 hexp.2]
        show ((eraseAL c.items key).length : Int) ≤ max c.opts.Capacity 1
        have := length_eraseAL_le c.items key
        omega
      · rw [get_live hl hexp]
        exact hs

theorem SizeOK_step {c : Cache} (h : WF c) (hs : SizeOK c) (op : Op) :
    SizeOK (c.step op) := by
  cases op with
  | put key value now => exact SizeOK_put h hs key value now
  | get key now => exact SizeOK_get hs key now
  | has key now => exact hs
  | stats => exact hs

theorem SizeOK_run (c : Cache) (ops : List Op) (h : WF c) (hs : SizeOK c) :
    SizeOK (run c ops) := by
  induction ops generalizing c with
  | nil => exact hs
  | cons op ops ih => exact ih _ (h.stepOp op) (SizeOK_step h hs op)

/-! ### Counter accounting -/

theorem remove_hits (c : Cache) (key : String) : (c.remove key).hits = c.hits := by
  unfold Cache.remove
  cases lookupAL c.items key <;> rfl

theorem remove_misses (c : Cache) (key : String) : (c.remove key).misses = c.misses := by
  unfold Cache.remove
  cases lookupAL c.items key <;> rfl

theorem remove_evictions (c : Cache) (key : String) :
    (c.remove key).evictions = c.evictions := by
  unfold Cache.remove
  cases lookupAL c.items key <;> rfl

theorem evict_hits (c : Cache) : c.evict.hits = c.hits := by
  unfold Cache.evict
  cases c.order with
  | nil => rfl
  | cons o r => exact remove_hits c o

theorem evict_misses (c : Cache) : c.evict.misses = c.misses := by
  unfold Cache.evict
  cases c.order with
  | nil => rfl
  | cons o r => exact remove_misses c o

theorem evict_evictions (c : Cache) :
    c.evict.evictions = c.evictions + (if c.order.isEmpty then 0 else 1) := by
  unfold Cache.evict
  cases c.order with
  | nil => simp [List.isEmpty]
  | cons o r =>
      show (c.remove o).evictions + 1 = c.evictions + _
      rw [remove_evictions]
      simp [List.isEmpty]

theorem Put_hits (c : Cache) (key : String) (value : Value) (now : Int) :
    (c.Put key value now).hits = c.hits := by
  unfold Cache.Put
  cases lookupAL c.items key with
  | some v => rfl
  | none =>
      show (if (c.items.length : Int) ≥ c.opts.Capacity then c.evict else c).hits = c.hits
      split
      · exact evict_hits c
      · rfl

theorem Put_misses (c : Cache) (key : String) (value : Value) (now : Int) :
    (c.Put key value now).misses = c.misses := by
  unfold Cache.Put
  cases lookupAL c.items key with
  | some v => rfl
  | none =>
      show (if (c.items.length : Int) ≥ c.opts.Capacity then c.evict else c).misses = c.misses
      split
      · exact evict_misses c
      · rfl

theorem Put_evictions (c : Cache) (key : String) (value : Value) (now : Int) :
    (c.Put key value now).evictions = c.evictions +
      (if (lookupAL c.items key).isNone &&
          decide ((c.items.length : Int) ≥ c.opts.Capacity) && !c.order.isEmpty
        then 1 else 0) := by
  cases hl : lookupAL c.items key with
  | some v =>
      rw [put_present value now hl]
      simp [hl]
  | none =>
      have hput : (c.Put key value now).evictions =
          (if (c.items.length : Int) ≥ c.opts.Capacity then c.evict else c).evictions := by
        simp only [Cache.Put, hl]
      by_cases hcap : (c.items.length : Int) ≥ c.opts.Capacity
      · rw [hput, if_pos hcap, evict_evictions]
        simp [hl, hcap]
      · rw [hput, if_neg hcap]
        simp [hl, hcap]

/-- Does `op`, applied in state `c`, qualify as a successful `Get`? -/
def isSuccessGet (c : Cache) : Op → Bool
  | Op.get key now =>
      match (c.Get key now).1 with
      | Except.ok _ => true
      | Except.error _ => false
  | _ => false

/-- Does `op`, applied in state `c`, qualify as a failing `Get`
(`NotFound` or `Expired`)? -/
def isFailGet (c : Cache) : Op → Bool
  | Op.get key now =>
      match (c.Get key now).1 with
      | Except.ok _ => false
      | Except.error _ => true
  | _ => false

/-- Does `op`, applied in state `c`, trigger a capacity eviction — the only
event that increments the eviction counter? -/
def isCapacityEviction (c : Cache) : Op → Bool
  | Op.put key _ _ =>
      (lookupAL c.items key).isNone &&
        decide ((c.items.length : Int) ≥ c.opts.Capacity) && !c.order.isEmpty
  | _ => false

/-- Number of successful `Get`s along a trace. -/
def countHits : Cache → List Op → Nat
  | _, [] => 0
  | c, op :: ops => (if isSuccessGet c op then 1 else 0) + countHits (c.step op) ops

/-- Number of failing `Get`s along a trace. -/
def countMisses : Cache → List Op → Nat
  | _, [] => 0
  | c, op :: ops => (if isFailGet c op then 1 else 0) + countMisses (c.step op) ops

/-- Number of capacity evictions along a trace. -/
def countEvictions : Cache → List Op → Nat
  | _, [] => 0
  | c, op :: ops =>
      (if isCapacityEviction c op then 1 else 0) + countEvictions (c.step op) ops

theorem hits_step (c : Cache) (op : Op) :
    (c.step op).hits = c.hits + (if isSuccessGet c op then 1 else 0) := by
  cases op with
  | put key value now =>
      show (c.Put key value now).hits = c.hits + _
      rw [Put_hits]
      simp [isSuccessGet]
  | has key now => simp [Cache.step, isSuccessGet]
  | stats => simp [Cache.step, isSuccessGet]
  | get key now =>
      show (c.Get key now).2.hits = c.hits + _
      cases hl : lookupAL c.items key with
      | none => simp [isSuccessGet, get_absent now hl]
      | some v =>
          by_cases hexp : c.opts.TTL > 0 ∧ now - lookupD c.timestamps key 0 > c.opts.TTL
          · simp [isSuccessGet, get_expired hl hexp.1 hexp.2]
          · simp [isSuccessGet, get_live hl hexp]

theorem misses_step (c : Cache) (op : Op) :
    (c.step op).misses = c.misses + (if isFailGet c op then 1 else 0) := by
  cases op with
  | put key value now =>
      show (c.Put key value now).misses = c.misses + _
      rw [Put_misses]
      simp [isFailGet]
  | has key now => simp [Cache.step, isFailGet]
  | stats => simp [Cache.step, isFailGet]
  | get key now =>
      show (c.Get key now).2.misses = c.misses + _
      cases hl : lookupAL c.items key with
      | none => simp [isFailGet, get_absent now hl]
      | some v =>
          by_cases hexp : c.opts.TTL > 0 ∧ now - lookupD c.timestamps key 0 > c.opts.TTL
          · simp [isFailGet, get_expired hl hexp.1 hexp.2]
          · simp [isFailGet, get_live hl hexp]

theorem evictions_step (c : Cache) (op : Op) :
    (c.step op).evictions = c.evictions + (if isCapacityEviction c op then 1 else 0) := by
  cases op with
  | put key value now =>
      show (c.Put key value now).evictions = c.evictions + _
      rw [Put_evictions]
      simp [isCapacityEviction]
  | has key now => simp [Cache.step, isCapacityEviction]
  | stats => simp [Cache.step, isCapacityEviction]
  | get key now =>
      show (c.Get key now).2.evictions = c.evictions + _
      cases hl : lookupAL c.items key with
      | none => simp [isCapacityEviction, get_absent now hl]
      | some v =>
          by_cases hexp : c.opts.TTL > 0 ∧ now - lookupD c.timestamps key 0 > c.opts.TTL
          · simp [isCapacityEviction, get_expired hl hexp.1 hexp.2]
          · simp [isCapacityEviction, get_live hl hexp]

theorem hits_run (c : Cache) (ops : List Op) :
    (run c ops).hits = c.hits + countHits c ops := by
  induction ops generalizing c with
  | nil => simp [run, countHits]
  | cons op ops ih =>
      rw [run, countHits, ih, hits_step]
      omega

theorem misses_run (c : Cache) (ops : List Op) :
    (run c ops).misses = c.misses + countMisses c ops := by
  induction ops generalizing c with
  | nil => simp [run, countMisses]
  | cons op ops ih =>
      rw [run, countMisses, ih, misses_step]
      omega

theorem evictions_run (c : Cache) (ops : List Op) :
    (run c ops).evictions = c.evictions + countEvictions c ops := by
  induction ops generalizing c with
  | nil => simp [run, countEvictions]
  | cons op ops ih =>
      rw [run, countEvictions, ih, evictions_step]
      omega

/-! ### The claims -/

/-- Capacity-2, no-TTL concrete scenario: state after
`Put(a,1); Put(b,2); Put(c,3)`. -/
def c1s3 : Cache :=
  run (NewCache { Capacity := 2, TTL := 0, OnEvict := true })
    [Op.put "a" [1] 0, Op.put "b" [2] 1, Op.put "c" [3] 2]

/-- Continuation of the scenario: state after the two `Get`s. -/
def c1s5 : Cache := run c1s3 [Op.get "a" 3, Op.get "b" 4]

/-- Continuation of the scenario: state after `Put(d,4)`. -/
def c1s6 : Cache := c1s5.Put "d" [4] 5

/-- C1: with capacity 2 and no TTL, after `Put(a,1)`, `Put(b,2)`, `Put(c,3)`
the key `a` has been evicted and the callback has fired exactly once, with
`("a", 1)`; `Get(a)` fails with `NotFound`; `Get(b)` succeeds returning `2`
and leaves `b` at the most-recently-used end; `Put(d,4)` then evicts `c`
(callback `("c", 3)`) and keeps `b`. -/
theorem spec_C1 :
    lookupAL c1s3.items "a" = none ∧
    c1s3.evictLog = [("a", [1])] ∧
    (c1s3.Get "a" 3).1 = Except.error (CacheError.KeyNotFoundError "a") ∧
    (((c1s3.Get "a" 3).2).Get "b" 4).1 = Except.ok [2] ∧
    c1s5.order.getLast? = some "b" ∧
    lookupAL c1s6.items "c" = none ∧
    lookupAL c1s6.items "b" = some [2] ∧
    c1s6.evictLog = [("a", [1]), ("c", [3])] :=
  ⟨rfl, rfl, rfl, rfl, rfl, rfl, rfl, rfl⟩

/-- C2: from a fresh cache with positive capacity, after any sequence of
`Put`/`Get`/`Has`/`Stats` calls the store holds at most `Capacity`
entries. -/
theorem spec_C2 (Capacity TTL : Int) (OnEvict : Bool) (ops : List Op)
    (hpos : 0 < Capacity) :
    (((run (NewCache { Capacity := Capacity, TTL := TTL, OnEvict := OnEvict })
        ops).items.length : Int)) ≤ Capacity := by
  have hwf := WF_NewCache { Capacity := Capacity, TTL := TTL, OnEvict := OnEvict }
  have hs : SizeOK (NewCache { Capacity := Capacity, TTL := TTL, OnEvict := OnEvict }) := by
    unfold SizeOK NewCache
    simp
  have h := SizeOK_run _ ops hwf hs
  unfold SizeOK at h
  rw [run_opts] at h
  have hcap : (NewCache { Capacity := Capacity, TTL := TTL, OnEvict := OnEvict }).opts.Capacity
      = Capacity := rfl
  rw [hcap, max_eq_left (by omega : (1 : Int) ≤ Capacity)] at h
  exact h

/-- C2 witness: a concrete positive-capacity run respects the bound. -/
theorem spec_C2_witness :
    (0 : Int) < 2 ∧
    (((run (NewCache { Capacity := 2, TTL := 0, OnEvict := false })
        [Op.put "a" [1] 0, Op.put "b" [2] 1, Op.put "c" [3] 2,
         Op.get "a" 4, Op.put "d" [4] 5]).items.length : Int)) ≤ 2 :=
  ⟨by decide,
   spec_C2 2 0 false
     [Op.put "a" [1] 0, Op.put "b" [2] 1, Op.put "c" [3] 2,
      Op.get "a" 4, Op.put "d" [4] 5] (by decide)⟩

/-- C3: from a fresh cache, between operations the order slice is
duplicate-free and holds exactly the keys present in the store. -/
theorem spec_C3 (opts : CacheOpts) (ops : List Op) :
    (run (NewCache opts) ops).order.Nodup ∧
    (∀ k, k ∈ (run (NewCache opts) ops).order ↔
      k ∈ keys (run (NewCache opts) ops).items) := by
  have h := WF_run (NewCache opts) ops (WF_NewCache opts)
  exact ⟨h.order_nodup, h.mem_iff⟩

/-- C4: `Get` on a present but TTL-expired key removes the entry from the
store, the timestamp map and the recency order, invokes the eviction
callback exactly once with the stored value, increments the miss counter,
and fails with `Expired` carrying the key. -/
theorem spec_C4 (c : Cache) (key : String) (v : Value) (now : Int)
    (hwf : WF c)
    (hl : lookupAL c.items key = some v)
    (ht : c.opts.TTL > 0)
    (he : now - lookupD c.timestamps key 0 > c.opts.TTL)
    (hcb : c.opts.OnEvict = true) :
    (c.Get key now).1 = Except.error (CacheError.ExpiredKeyError key) ∧
    lookupAL (c.Get key now).2.items key = none ∧
    lookupAL (c.Get key now).2.timestamps key = none ∧
    key ∉ (c.Get key now).2.order ∧
    (c.Get key now).2.evictLog = c.evictLog ++ [(key, v)] ∧
    (c.Get key now).2.misses = c.misses + 1 := by
  rw [get_expired hl ht he]
  refine ⟨rfl, ?_, ?_, ?_, ?_, rfl⟩
  · show lookupAL (eraseAL c.items key) key = none
    rw [lookupAL_eraseAL]
    simp
  · show lookupAL (eraseAL c.timestamps key) key = none
    rw [lookupAL_eraseAL]
    simp
  · show key ∉ removeFirst c.order key
    intro hmem
    exact ((mem_removeFirst _ _ _ hwf.order_nodup).1 hmem).2 rfl
  · show (if c.opts.OnEvict then c.evictLog ++ [(key, v)] else c.evictLog)
      = c.evictLog ++ [(key, v)]
    rw [hcb]
    rfl

/-- Witness state for C4: `Put(x,7)` at time 0 into a fresh TTL-50 cache. -/
def c4w : Cache :=
  run (NewCache { Capacity := 10, TTL := 50, OnEvict := true })
    [Op.put "x" [7] 0]

/-- C4 witness: reading `x` at time 60 in `c4w` expires it. -/
theorem spec_C4_witness :
    lookupAL c4w.items "x" = some [7] ∧
    ((c4w.Get "x" 60).1 = Except.error (CacheError.ExpiredKeyError "x") ∧
     lookupAL (c4w.Get "x" 60).2.items "x" = none ∧
     lookupAL (c4w.Get "x" 60).2.timestamps "x" = none ∧
     "x" ∉ (c4w.Get "x" 60).2.order ∧
     (c4w.Get "x" 60).2.evictLog = c4w.evictLog ++ [("x", [7])] ∧
     (c4w.Get "x" 60).2.misses = c4w.misses + 1) :=
  ⟨by decide,
   spec_C4 c4w "x" [7] 60 (WF_run _ _ (WF_NewCache _))
     (by decide) (by decide) (by decide) (by decide)⟩

/-- C5: `Has` returns `true` exactly when the key is present and (when a
TTL is configured) not yet expired at the time of the call, and it leaves
the entire state — store, order, timestamps, counters, callback log —
untouched, never invoking the callback. -/
theorem spec_C5 (c : Cache) (key : String) (now : Int) :
    (c.Has key now = true ↔
      (lookupAL c.items key).isSome ∧
      (c.opts.TTL > 0 → now - lookupD c.timestamps key 0 ≤ c.opts.TTL)) ∧
    c.step (Op.has key now) = c := by
  refine ⟨?_, rfl⟩
  unfold Cache.Has
  cases hl : lookupAL c.items key with
  | none => simp
  | some v =>
      by_cases hexp : c.opts.TTL > 0 ∧ now - lookupD c.timestamps key 0 > c.opts.TTL
      · rw [if_pos hexp]
        constructor
        · intro h
          exact Bool.noConfusion h
        · rintro ⟨-, himp⟩
          exact absurd (himp hexp.1) (not_le.2 hexp.2)
      · rw [if_neg hexp]
        constructor
        · intro _
          refine ⟨by simp, ?_⟩
          intro ht
          by_contra hlt
          push_neg at hlt
          exact hexp ⟨ht, hlt⟩
        · intro _
          rfl

/-- C6: `Put` on an already-present key replaces the value, refreshes the
timestamp, moves the key to the most-recently-used end, evicts nothing,
leaves the eviction counter and callback log unchanged, and keeps the store
size constant — capacity plays no role in this branch. -/
theorem spec_C6 (c : Cache) (key : String) (v0 value : Value) (now : Int)
    (hl : lookupAL c.items key = some v0) :
    c.Put key value now =
      { c with
        items := insertAL c.items key value,
        timestamps := insertAL c.timestamps key now,
        order := removeFirst c.order key ++ [key] } ∧
    lookupAL (c.Put key value now).items key = some value ∧
    lookupAL (c.Put key value now).timestamps key = some now ∧
    (c.Put key value now).order.getLast? = some key ∧
    (c.Put key value now).evictions = c.evictions ∧
    (c.Put key value now).evictLog = c.evictLog ∧
    (c.Put key value now).items.length = c.items.length := by
  rw [put_present value now hl]
  refine ⟨rfl, ?_, ?_, ?_, rfl, rfl, ?_⟩
  · show lookupAL (insertAL c.items key value) key = some value
    rw [lookupAL_insertAL]
    simp
  · show lookupAL (insertAL c.timestamps key now) key = some now
    rw [lookupAL_insertAL]
    simp
  · show (removeFirst c.order key ++ [key]).getLast? = some key
    simp
  · show (insertAL c.items key value).length = c.items.length
    exact length_insertAL_some _ _ _ _ hl

/-- Witness state for C6: a capacity-1 cache that is full. -/
def c6w : Cache :=
  run (NewCache { Capacity := 1, TTL := 0, OnEvict := true }) [Op.put "a" [1] 0]

/-- C6 witness: overwriting `a` in the full `c6w` evicts nothing. -/
theorem spec_C6_witness :
    lookupAL c6w.items "a" = some [1] ∧
    (c6w.Put "a" [9] 7 =
      { c6w with
        items := insertAL c6w.items "a" [9],
        timestamps := insertAL c6w.timestamps "a" 7,
        order := removeFirst c6w.order "a" ++ ["a"] } ∧
     lookupAL (c6w.Put "a" [9] 7).items "a" = some [9] ∧
     lookupAL (c6w.Put "a" [9] 7).timestamps "a" = some 7 ∧
     (c6w.Put "a" [9] 7).order.getLast? = some "a" ∧
     (c6w.Put "a" [9] 7).evictions = c6w.evictions ∧
     (c6w.Put "a" [9] 7).evictLog = c6w.evictLog ∧
     (c6w.Put "a" [9] 7).items.length = c6w.items.length) :=
  ⟨by decide, spec_C6 c6w "a" [1] [9] 7 (by decide)⟩

/-- C7: `Get` on an absent key increments the miss counter by one, fails
with `NotFound` carrying the key, and changes nothing else: store, order,
timestamps, hit and eviction counters and callback log are untouched. -/
theorem spec_C7 (c : Cache) (key : String) (now : Int)
    (hl : lookupAL c.items key = none) :
    c.Get key now = (Except.error (CacheError.KeyNotFoundError key),
      { c with misses := c.misses + 1 }) ∧
    (c.Get key now).2.items = c.items ∧
    (c.Get key now).2.order = c.order ∧
    (c.Get key now).2.timestamps = c.timestamps ∧
    (c.Get key now).2.hits = c.hits ∧
    (c.Get key now).2.evictions = c.evictions ∧
    (c.Get key now).2.evictLog = c.evictLog ∧
    (c.Get key now).2.misses = c.misses + 1 := by
  rw [get_absent now hl]
  exact ⟨rfl, rfl, rfl, rfl, rfl, rfl, rfl, rfl⟩

/-- Witness state for C7: a cache holding only `a`. -/
def c7w : Cache :=
  run (NewCache { Capacity := 2, TTL := 0, OnEvict := true }) [Op.put "a" [1] 0]

/-- C7 witness: `Get(z)` on `c7w` misses with `NotFound`. -/
theorem spec_C7_witness :
    lookupAL c7w.items "z" = none ∧
    (c7w.Get "z" 1 = (Except.error (CacheError.KeyNotFoundError "z"),
      { c7w with misses := c7w.misses + 1 }) ∧
     (c7w.Get "z" 1).2.items = c7w.items ∧
     (c7w.Get "z" 1).2.order = c7w.order ∧
     (c7w.Get "z" 1).2.timestamps = c7w.timestamps ∧
     (c7w.Get "z" 1).2.hits = c7w.hits ∧
     (c7w.Get "z" 1).2.evictions = c7w.evictions ∧
     (c7w.Get "z" 1).2.evictLog = c7w.evictLog ∧
     (c7w.Get "z" 1).2.misses = c7w.misses + 1) :=
  ⟨by decide, spec_C7 c7w "z" 1 (by decide)⟩

/-- C8: the three counters only ever grow along any run, and from a fresh
cache `Stats` reports exactly the number of qualifying events: after a run
with no capacity evictions it returns `(H, M, 0)` where `H` and `M` are the
numbers of successful and failing `Get`s. -/
theorem spec_C8 :
    (∀ (c : Cache) (ops : List Op),
      c.hits ≤ (run c ops).hits ∧
      c.misses ≤ (run c ops).misses ∧
      c.evictions ≤ (run c ops).evictions) ∧
    (∀ (opts : CacheOpts) (ops : List Op),
      countEvictions (NewCache opts) ops = 0 →
      (run (NewCache opts) ops).Stats =
        (countHits (NewCache opts) ops, countMisses (NewCache opts) ops, 0)) := by
  constructor
  · intro c ops
    refine ⟨?_, ?_, ?_⟩
    · rw [hits_run]
      omega
    · rw [misses_run]
      omega
    · rw [evictions_run]
      omega
  · intro opts ops h0
    unfold Cache.Stats
    rw [hits_run, misses_run, evictions_run, h0]
    simp [NewCache]

/-- Options of the C8 witness cache. -/
def c8opts : CacheOpts := { Capacity := 2, TTL := 0, OnEvict := false }

/-- C8 witness trace: one hit, one miss, no eviction. -/
def c8tr : List Op := [Op.put "a" [1] 0, Op.get "a" 1, Op.get "b" 2]

/-- C8 witness: on the concrete trace, `Stats` reports the event counts. -/
theorem spec_C8_witness :
    countEvictions (NewCache c8opts) c8tr = 0 ∧
    (run (NewCache c8opts) c8tr).Stats =
      (countHits (NewCache c8opts) c8tr, countMisses (NewCache c8opts) c8tr, 0) :=
  ⟨by decide, spec_C8.2 c8opts c8tr (by decide)⟩

/-- C9: a TTL-expiry removal inside `Get` leaves the eviction counter
unchanged (while still invoking the callback), whereas a capacity eviction
inside `Put` increments it by one (also invoking the callback): the two
removal paths share the callback but not the counter. -/
theorem spec_C9 :
    (∀ (c : Cache) (key : String) (v : Value) (now : Int),
      lookupAL c.items key = some v →
      c.opts.TTL > 0 →
      now - lookupD c.timestamps key 0 > c.opts.TTL →
      (c.Get key now).2.evictions = c.evictions ∧
      (c.opts.OnEvict = true →
        (c.Get key now).2.evictLog = c.evictLog ++ [(key, v)])) ∧
    (∀ (c : Cache) (key oldest : String) (rest : List String)
        (w value : Value) (now : Int),
      lookupAL c.items key = none →
      (c.items.length : Int) ≥ c.opts.Capacity →
      c.order = oldest :: rest →
      lookupAL c.items oldest = some w →
      (c.Put key value now).evictions = c.evictions + 1 ∧
      (c.opts.OnEvict = true →
        (c.Put key value now).evictLog = c.evictLog ++ [(oldest, w)])) := by
  constructor
  · intro c key v now hl ht he
    rw [get_expired hl ht he]
    refine ⟨rfl, ?_⟩
    intro hcb
    show (if c.opts.OnEvict then c.evictLog ++ [(key, v)] else c.evictLog)
      = c.evictLog ++ [(key, v)]
    rw [hcb]
    rfl
  · intro c key oldest rest w value now hl hcap ho hw
    rw [put_absent_full value now hl hcap ho hw]
    refine ⟨rfl, ?_⟩
    intro hcb
    show (if c.opts.OnEvict then c.evictLog ++ [(oldest, w)] else c.evictLog)
      = c.evictLog ++ [(oldest, w)]
    rw [hcb]
    rfl

/-- Witness state for the expiry half of C9. -/
def c9w1 : Cache :=
  run (NewCache { Capacity := 10, TTL := 50, OnEvict := true })
    [Op.put "y" [7] 0]

/-- Witness state for the capacity half of C9: a full capacity-1 cache. -/
def c9w2 : Cache :=
  run (NewCache { Capacity := 1, TTL := 0, OnEvict := true }) [Op.put "p" [1] 0]

/-- C9 witness: expiring `y` leaves the counter alone; inserting over the
full `c9w2` bumps it, and both append one callback record. -/
theorem spec_C9_witness :
    (lookupAL c9w1.items "y" = some [7] ∧
     ((c9w1.Get "y" 60).2.evictions = c9w1.evictions ∧
      (c9w1.opts.OnEvict = true →
        (c9w1.Get "y" 60).2.evictLog = c9w1.evictLog ++ [("y", [7])]))) ∧
    (lookupAL c9w2.items "q" = none ∧
     ((c9w2.Put "q" [2] 1).evictions = c9w2.evictions + 1 ∧
      (c9w2.opts.OnEvict = true →
        (c9w2.Put "q" [2] 1).evictLog = c9w2.evictLog ++ [("p", [1])]))) :=
  ⟨⟨by decide, spec_C9.1 c9w1 "y" [7] 60 (by decide) (by decide) (by decide)⟩,
   ⟨by decide,
    spec_C9.2 c9w2 "q" "p" [] [1] [2] 1 (by decide) (by decide) (by decide) (by decide)⟩⟩

theorem singleton_of_lookup_length_le_one {α : Type} (m : List (String × α))
    (key : String) (v : α) (hlen : m.length ≤ 1)
    (hl : lookupAL m key = some v) : m = [(key, v)] := by
  cases m with
  | nil => simp [lookupAL] at hl
  | cons p m' =>
      cases m' with
      | nil =>
          obtain ⟨a, b⟩ := p
          by_cases hk : key = a
          · simp only [lookupAL, if_pos hk, Option.some.injEq] at hl
            rw [hk, hl]
          · simp [lookupAL, hk] at hl
      | cons q m'' => simp at hlen

theorem put_cap0 (c : Cache) (key : String) (value : Value) (now : Int)
    (hwf : WF c) (hlen : c.items.length ≤ 1) (hcap : c.opts.Capacity = 0) :
    (c.Put key value now).items = [(key, value)] := by
  cases hl : lookupAL c.items key with
  | some v =>
      rw [put_present value now hl]
      show insertAL c.items key value = [(key, value)]
      rw [singleton_of_lookup_length_le_one c.items key v hlen hl]
      simp [insertAL]
  | none =>
      have hcap2 : (c.items.length : Int) ≥ c.opts.Capacity := by
        rw [hcap]
        omega
      cases ho : c.order with
      | nil =>
          rw [put_absent_empty_order value now hl hcap2 ho]
          show insertAL c.items key value = [(key, value)]
          rw [items_nil_of_order_nil hwf ho]
          rfl
      | cons oldest rest =>
          have homem : oldest ∈ keys c.items :=
            (hwf.mem_iff oldest).1 (by rw [ho]; exact List.mem_cons_self _ _)
          rw [mem_keys_iff] at homem
          obtain ⟨w, hw⟩ := Option.isSome_iff_exists.1 homem
          rw [put_absent_full value now hl hcap2 ho hw]
          show insertAL (eraseAL c.items oldest) key value = [(key, value)]
          rw [singleton_of_lookup_length_le_one c.items oldest w hlen hw]
          simp [eraseAL, insertAL]

/-- A fresh cache constructed with `Capacity = 0`. -/
def c10base (TTL : Int) (OnEvict : Bool) : Cache :=
  NewCache { Capacity := 0, TTL := TTL, OnEvict := OnEvict }

/-- C10: with `Capacity = 0`, the eviction guard `len(items) >= Capacity`
fires on every insert of an absent key, so `Put` always evicts the current
least-recently-used entry first (a no-op on an empty cache) and then
inserts; after any `Put` the store holds exactly the one entry just
written — one more than the configured capacity. -/
theorem spec_C10 (TTL : Int) (OnEvict : Bool) (ops : List Op)
    (key : String) (value : Value) (now : Int) :
    ((run (c10base TTL OnEvict) ops).Put key value now).items = [(key, value)] ∧
    ((run (c10base TTL OnEvict) ops).Put key value now).items.length = 1 := by
  have hwf := WF_run (c10base TTL OnEvict) ops (WF_NewCache _)
  have hs := SizeOK_run (c10base TTL OnEvict) ops (WF_NewCache _)
    (by unfold SizeOK c10base NewCache; simp)
  unfold SizeOK at hs
  rw [run_opts] at hs
  have hs' : ((run (c10base TTL OnEvict) ops).items.length : Int) ≤ max (0 : Int) 1 := hs
  have hlen : (run (c10base TTL OnEvict) ops).items.length ≤ 1 := by
    have hm : max (0 : Int) 1 = 1 := by omega
    rw [hm] at hs'
    exact_mod_cast hs'
  have hcap : (run (c10base TTL OnEvict) ops).opts.Capacity = 0 := by
    rw [run_opts]
    rfl
  have h := put_cap0 _ key value now hwf hlen hcap
  refine ⟨h, ?_⟩
  rw [h]
  rfl

end GoLRU
